import Mathlib

/-!
Verification of the `be` formatting/linting cache against its specification.

The definitions below are a shallow embedding of the Rust sources:
- src/cache.rs  : the SQLite-backed cache store (tables `be_binary_id`,
  `fourmolu`, `nixfmt`, `hlint`), tool lookup (`which`), `file_hash`,
  `sqlite_valid` / `sqlite_reset`.
- src/format.rs : the per-file and stdin formatting pipelines.
- src/lint.rs   : the lint pipeline and the `HlintHint` payload codec.
- src/io.rs     : `read_file` / `write_file` (temp file + rename).
- src/exec.rs   : subprocess exit-status classification.

SQL rows are lists of records; `insert or ignore` appends unless a row with
the same unique key exists; query parameters `$i` are modelled by an explicit
bind list indexed one-based, and a parameter index beyond the bind list is
unbound (SQLite compares an unbound parameter as NULL, which never matches;
this matters for the `$3` slip in `is_nix_formatted`).  Hash values entering
the store go through `toString`, matching `u64::to_string`.  Byte strings are
`List Nat`.
-/

namespace Be

/-! ## Cache tables (src/cache.rs)

One record type per tool table, fields as in `sqlite_reset`'s schema. -/

structure FourmoluRow where
  version : String
  config_hash : String
  extensions_hash : String
  source_hash : String
deriving DecidableEq

structure NixfmtRow where
  version : String
  source_hash : String
deriving DecidableEq

/-- One-based positional lookup of a `$i` query parameter in the bind list.
An index beyond the list is an unbound parameter (compares as NULL). -/
def bindAt (binds : List String) (i : Nat) : Option String :=
  binds[i - 1]?

/-- The WHERE clause of `is_haskell_formatted`:
`version = $1 and config_hash = $2 and extensions_hash = $3 and source_hash = $4`. -/
def fourmoluWhere (binds : List String) (r : FourmoluRow) : Bool :=
  some r.version == bindAt binds 1
    && some r.config_hash == bindAt binds 2
    && some r.extensions_hash == bindAt binds 3
    && some r.source_hash == bindAt binds 4

/-- `Cache::is_haskell_formatted`: `select exists(... from fourmolu where ...)`
with binds `(version, config_hash, extensions_hash, source_hash)`. -/
def isHaskellFormatted (t : List FourmoluRow)
    (version config_hash extensions_hash source_hash : String) : Bool :=
  t.any (fourmoluWhere [version, config_hash, extensions_hash, source_hash])

/-- The `fourmolu` table's unique key: `unique (version, config_hash, source_hash)`
(note: `extensions_hash` is not part of the unique constraint). -/
def fourmoluUniqueKey (a b : FourmoluRow) : Bool :=
  a.version == b.version && a.config_hash == b.config_hash
    && a.source_hash == b.source_hash

/-- `Cache::mark_haskell_formatted`: `insert or ignore into fourmolu values ($1, $2, $3, $4)`. -/
def markHaskellFormatted (t : List FourmoluRow)
    (version config_hash extensions_hash source_hash : String) : List FourmoluRow :=
  let r : FourmoluRow := ⟨version, config_hash, extensions_hash, source_hash⟩
  if t.any (fourmoluUniqueKey r) then t else t ++ [r]

/-- The WHERE clause of `is_nix_formatted`, exactly as the source writes it:
`version = $1 and source_hash = $3` — while the call site binds only two
values, `(version, source_hash)`.  Parameter `$3` is therefore unbound. -/
def nixfmtWhere (binds : List String) (r : NixfmtRow) : Bool :=
  some r.version == bindAt binds 1
    && some r.source_hash == bindAt binds 3

/-- `Cache::is_nix_formatted` with binds `(version, source_hash)`. -/
def isNixFormatted (t : List NixfmtRow) (version source_hash : String) : Bool :=
  t.any (nixfmtWhere [version, source_hash])

/-- The `nixfmt` table's unique key: `unique (version, source_hash)`. -/
def nixfmtUniqueKey (a b : NixfmtRow) : Bool :=
  a.version == b.version && a.source_hash == b.source_hash

/-- `Cache::mark_nix_formatted`: `insert or ignore into nixfmt values ($1, $2)`. -/
def markNixFormatted (t : List NixfmtRow) (version source_hash : String) : List NixfmtRow :=
  let r : NixfmtRow := ⟨version, source_hash⟩
  if t.any (nixfmtUniqueKey r) then t else t ++ [r]

/-! ## Store open / identity check / reset (src/cache.rs) -/

structure HlintRowRaw where
  version : String
  configs_hash : String
  source_hash : String
  hints : List Nat
deriving DecidableEq

/-- The whole on-disk store.  A `none` table is one that does not exist. -/
structure Store where
  be_binary_id : Option (List String)
  fourmolu : Option (List FourmoluRow)
  nixfmt : Option (List NixfmtRow)
  hlint : Option (List HlintRowRaw)
deriving DecidableEq

/-- `sqlite_valid`: first `create table if not exists be_binary_id`, then check
`count(*) = 1` and that the current build's id is present.  Returns the store
after the `create table if not exists` together with the validity bit.
The id is a parameter because `BE_BINARY_ID` is a build-time random constant. -/
def sqliteValid (id : String) (s : Store) : Store × Bool :=
  let ids := s.be_binary_id.getD []
  ({ s with be_binary_id := some ids },
    ids.length == 1 && ids.contains id)

/-- `sqlite_reset`: drop all four tables, recreate them, insert the current id. -/
def sqliteReset (id : String) : Store :=
  { be_binary_id := some [id]
    fourmolu := some []
    nixfmt := some []
    hlint := some [] }

/-- `Cache::new`'s store handling: validity check, then reuse or full reset. -/
def cacheNew (id : String) (s : Store) : Store :=
  let checked := sqliteValid id s
  if checked.2 then checked.1 else sqliteReset id

/-! ## `file_hash` (src/cache.rs)

`file_hash` allocates `BytesMut::with_capacity(1024)`; a `BytesMut` fresh from
`with_capacity` has length 0, and passing `&mut buffer` to
`AsyncReadExt::read` deref-coerces it to its initialized slice, so every read
is into a zero-length buffer and returns 0.  We model the loop over the
remaining file content, tracking the bytes that reach the hasher through the
`Hashing` wrapper; the hash itself is a function of exactly these bytes. -/

/-- The read loop of `file_hash`: each `read` fills at most `bufLen` bytes and
the loop stops at the first zero-byte read.  Returns the bytes fed to the
hasher. -/
def hashedBytes (bufLen : Nat) (remaining fed : List Nat) : List Nat :=
  let n := min bufLen remaining.length
  if _h : n = 0 then fed
  else hashedBytes bufLen (remaining.drop n) (fed ++ remaining.take n)
termination_by remaining.length
decreasing_by
  simp only [List.length_drop]
  omega

/-- Bytes that `file_hash` feeds to its hasher for a file with the given
content.  The buffer's readable length is 0 (see above). -/
def fileHashFed (content : List Nat) : List Nat :=
  hashedBytes 0 content []

/-- Modelled from the spec: the fingerprint is the streaming hash of the
file's entire byte content, i.e. the hasher is fed every byte of the file. -/
def fileHashFedSpec (content : List Nat) : List Nat :=
  content

/-! ## Tool lookup (src/cache.rs, `Cache::which`)

`which` tries `which_global` (the standard executable search path) and falls
back, via `or_else`, to `which_in_global` in the repo-local `.bin` directory
under the git root; the found path is canonicalized.  The filesystem is
abstracted to the results of the two searches plus a canonicalization map. -/

structure ToolEnv where
  /-- Result of `which_global(binary)` on the standard search path. -/
  pathResult : Option String
  /-- Result of `which_in_global(binary, git_root/.bin)`. -/
  binResult : Option String
  /-- `Path::canonicalize` (symlink resolution). -/
  canonical : String → String

inductive WhichError where
  | cannotFindBinaryPath
deriving DecidableEq

/-- The closure `which_path` in `Cache::which`. -/
def whichPath (env : ToolEnv) : Except WhichError String :=
  match env.pathResult with
  | some p => .ok p
  | none => .error .cannotFindBinaryPath

/-- The closure `which_bin` in `Cache::which`. -/
def whichBin (env : ToolEnv) : Except WhichError String :=
  match env.binResult with
  | some p => .ok p
  | none => .error .cannotFindBinaryPath

/-- `Cache::which`'s resolution order:
`which_path().or_else(|_| which_bin())?.canonicalize()?`. -/
def whichTool (env : ToolEnv) : Except WhichError String :=
  match whichPath env with
  | .ok p => .ok (env.canonical p)
  | .error _ =>
    match whichBin env with
    | .ok p => .ok (env.canonical p)
    | .error e => .error e

/-- The search order exactly as claim C4 states it: the repo-local override
directory first, the standard executable search path second. -/
def whichToolClaimOrder (env : ToolEnv) : Except WhichError String :=
  match whichBin env with
  | .ok p => .ok (env.canonical p)
  | .error _ =>
    match whichPath env with
    | .ok p => .ok (env.canonical p)
    | .error e => .error e

/-! ## Write-back (src/io.rs `write_file`) and the format pipeline (src/format.rs)

`write_file` creates a temp file inside a fresh `tempdir()`, writes all bytes,
flushes, and renames it over the destination.  We model the operation sequence
and the destination/temp file contents after each prefix of it; the rename is
the only operation that can change the destination. -/

inductive FileOp where
  | createTemp
  | writeTemp (bytes : List Nat)
  | flushTemp
  | renameTempOverDest
deriving DecidableEq

/-- The operations `write_file` performs, in order. -/
def writeFileOps (bytes : List Nat) : List FileOp :=
  [.createTemp, .writeTemp bytes, .flushTemp, .renameTempOverDest]

/-- Destination and temp-file contents.  The temp directory is private
(freshly created by `tempdir()`), so the temp path is distinct from the
destination and only `renameTempOverDest` touches the destination. -/
structure FsView where
  dest : List Nat
  temp : Option (List Nat)
deriving DecidableEq

def applyOp (fs : FsView) : FileOp → FsView
  | .createTemp => { fs with temp := some [] }
  | .writeTemp b => { fs with temp := fs.temp.map (fun cur => cur ++ b) }
  | .flushTemp => fs
  | .renameTempOverDest =>
    match fs.temp with
    | some b => { dest := b, temp := none }
    | none => fs

def applyOps (fs : FsView) (ops : List FileOp) : FsView :=
  ops.foldl applyOp fs

/-- `format_haskell` (src/format.rs): read the file, look the fingerprint up,
on a miss run the formatter, record the fingerprint, and write back only when
the output differs.  The formatter `f` and the content hash `H` (XxHash3_64
via the `Hashing` reader) are parameters; hashes enter the store through
`toString`, matching `u64::to_string`.  Returns the new table and file
content, the `Option<bool>` result, and the write-back operations. -/

structure FormatState where
  table : List FourmoluRow
  file : List Nat
deriving DecidableEq

structure FormatResult where
  state : FormatState
  changed : Option Bool
  ops : List FileOp
deriving DecidableEq

def formatHaskell (f : List Nat → List Nat) (H : List Nat → Nat)
    (version config_hash extensions_hash : String) (st : FormatState) : FormatResult :=
  let input := st.file
  let source_hash := toString (H input)
  if isHaskellFormatted st.table version config_hash extensions_hash source_hash then
    { state := st, changed := some false, ops := [] }
  else
    let output := f input
    let table := markHaskellFormatted st.table version config_hash extensions_hash source_hash
    if input == output then
      { state := { st with table }, changed := some false, ops := [] }
    else
      { state := { table, file := output }, changed := some true, ops := writeFileOps output }

/-- The stdin branch of `run_format_haskell` (src/format.rs): read stdin, look
up; on a hit emit the input bytes, on a miss run `fourmolu` and emit its
output.  No `mark_haskell_formatted` call exists on this path. -/

structure StdinResult where
  output : List Nat
  table : List FourmoluRow
  invoked : Bool
deriving DecidableEq

def runFormatHaskellStdin (f : List Nat → List Nat) (H : List Nat → Nat)
    (version config_hash extensions_hash : String)
    (t : List FourmoluRow) (input : List Nat) : StdinResult :=
  if isHaskellFormatted t version config_hash extensions_hash (toString (H input)) then
    { output := input, table := t, invoked := false }
  else
    { output := f input, table := t, invoked := true }

structure NixStdinResult where
  output : List Nat
  table : List NixfmtRow
  invoked : Bool
deriving DecidableEq

/-- The stdin branch of `run_format_nix` (src/format.rs); no
`mark_nix_formatted` call exists on this path. -/
def runFormatNixStdin (f : List Nat → List Nat) (H : List Nat → Nat)
    (version : String) (t : List NixfmtRow) (input : List Nat) : NixStdinResult :=
  if isNixFormatted t version (toString (H input)) then
    { output := input, table := t, invoked := false }
  else
    { output := f input, table := t, invoked := true }

/-! ## Subprocess exit classification (src/exec.rs) -/

/-- A Unix exit status as the code inspects it: `success()` is a normal exit
with code 0, `code()` is `Some` for a normal exit, `signal()` is `Some` for a
signal termination; the final branch (`unknown`) covers any other death. -/
inductive ExitStatus where
  | exited (code : Int)
  | signaled (sig : Nat)
  | unknown
deriving DecidableEq

def statusSuccess : ExitStatus → Bool
  | .exited code => code == 0
  | _ => false

def statusCode : ExitStatus → Option Int
  | .exited code => some code
  | _ => none

def statusSignal : ExitStatus → Option Nat
  | .signaled sig => some sig
  | _ => none

inductive ExecError where
  | spawnFailed
  | exitedWithCode (code : Int) (stderr : List Nat)
  | terminatedBySignal (sig : Nat)
  | diedUnknown
deriving DecidableEq

structure ChildOutput where
  status : ExitStatus
  stdout : List Nat
  stderr : List Nat
deriving DecidableEq

/-- `exec` (src/exec.rs), as a function of the spawn outcome (`none` = the
spawn itself failed): success returns the captured stdout; otherwise the
failure is classified by exit code, then signal, then a generic report. -/
def execResult (outcome : Option ChildOutput) : Except ExecError (List Nat) :=
  match outcome with
  | none => .error .spawnFailed
  | some output =>
    if statusSuccess output.status then
      .ok output.stdout
    else
      match statusCode output.status with
      | some code => .error (.exitedWithCode code output.stderr)
      | none =>
        match statusSignal output.status with
        | some sig => .error (.terminatedBySignal sig)
        | none => .error .diedUnknown

/-- Modelled from the spec: the classification table claim C9 states, written
by cases on the exit status. -/
def execResultSpec (status : ExitStatus) (stdout stderr : List Nat) :
    Except ExecError (List Nat) :=
  match status with
  | .exited 0 => .ok stdout
  | .exited code => .error (.exitedWithCode code stderr)
  | .signaled sig => .error (.terminatedBySignal sig)
  | .unknown => .error .diedUnknown

structure Command where
  program : String
  args : List String
deriving DecidableEq

/-- The command `sandbox_exec` (src/exec.rs) actually spawns: on macOS the
invocation is wrapped in `/usr/bin/sandbox-exec -p <profile> -- <program>`,
elsewhere the program is invoked directly. -/
def sandboxExecCommand (macos : Bool) (profile program : String) (args : List String) : Command :=
  if macos then
    { program := "/usr/bin/sandbox-exec", args := ["-p", profile, "--", program] ++ args }
  else
    { program := program, args := args }

/-- `sandbox_exec` delegates to `exec` in both branches, so its result on a
given spawn outcome is `exec`'s. -/
def sandboxExecResult (outcome : Option ChildOutput) : Except ExecError (List Nat) :=
  execResult outcome

/-! ## Permit pools (src/context.rs, src/format.rs, src/lint.rs, src/io.rs)

Each permit-using function is embedded as its sequence of permit-relevant
steps: permit acquisitions, explicit `drop(permit)` calls, and fallible
awaited operations (every `?`).  The interpreter `runSteps` produces the
acquire/release event trace for a given failure point, honouring Rust drop
semantics: on an early `?` return, and at normal scope end, the still-held
permits are dropped in reverse acquisition order. -/

inductive PKind where
  | file
  | process
deriving DecidableEq

inductive PEv where
  | acq (k : PKind)
  | rel (k : PKind)
deriving DecidableEq

inductive PStep where
  | acquire (k : PKind)
  | release (k : PKind)
  | action
deriving DecidableEq

/-- Drop the still-held permits; `held` is a stack (most recent first), so
this is reverse acquisition order. -/
def unwind (held : List PKind) : List PEv :=
  held.map PEv.rel

/-- Run the steps with an optional failure point (`some i` = the i-th step's
operation fails and the function returns early through `?`). -/
def runStepsAux : List PStep → Option Nat → List PKind → List PEv
  | [], _, held => unwind held
  | s :: rest, failAt, held =>
    if failAt = some 0 then
      unwind held
    else
      let failAt := failAt.map (fun i => i - 1)
      match s with
      | .acquire k => .acq k :: runStepsAux rest failAt (k :: held)
      | .release k => .rel k :: runStepsAux rest failAt (held.erase k)
      | .action => runStepsAux rest failAt held

def runSteps (steps : List PStep) (failAt : Option Nat) : List PEv :=
  runStepsAux steps failAt []

/-- `fourmolu` (src/format.rs): `which`?, `canonicalize`?, `fourmolu_config`?,
`fourmolu_extensions`?, acquire file permit?, acquire process permit?,
`spawn`?, `write_all`?, `flush`?, `wait_with_output`?, `drop(process_permit)`,
`drop(file_permit)`, status check (may `bail!`). -/
def fourmoluSteps : List PStep :=
  [.action, .action, .action, .action,
   .acquire .file, .acquire .process,
   .action, .action, .action, .action,
   .release .process, .release .file, .action]

/-- `hlint` (src/lint.rs): `which`?, acquire file permit?, acquire process
permit?, `hlint_configs`?, `spawn`?, `write_all`?, `flush`?,
`wait_with_output`?, `drop(process_permit)`, `drop(file_permit)`, status check
(may `bail!`), JSON parse?. -/
def hlintSteps : List PStep :=
  [.action,
   .acquire .file, .acquire .process,
   .action, .action, .action, .action, .action,
   .release .process, .release .file, .action, .action]

/-- `read_file` (src/io.rs): acquire file permit?, `open`?, `read_to_end`?;
the permit binding (`_permit`) is dropped at scope end. -/
def readFileSteps : List PStep :=
  [.acquire .file, .action, .action]

/-- `write_file` (src/io.rs): `tempdir`?, acquire file permit?, `create`?,
`write_all`?, `flush`?, explicit `drop(permit)`, `rename`?. -/
def writeFileSteps : List PStep :=
  [.action, .acquire .file, .action, .action, .action, .release .file, .action]

/-- Both pools are restored: per kind, as many releases as acquisitions. -/
def balancedEvents (evs : List PEv) : Bool :=
  evs.count (.acq .file) == evs.count (.rel .file)
    && evs.count (.acq .process) == evs.count (.rel .process)
    && evs.count (.acq .file) ≤ 1 && evs.count (.acq .process) ≤ 1

/-- The releases that occur, in order: nothing, just the file permit, or the
process permit strictly before the file permit (reverse acquisition order). -/
def releaseOrderOk (evs : List PEv) : Bool :=
  let rels := evs.filter fun e =>
    match e with
    | .rel _ => true
    | .acq _ => false
  rels == [] || rels == [PEv.rel .file] || rels == [PEv.rel .process, PEv.rel .file]

def stepsOk (steps : List PStep) (failAt : Option Nat) : Bool :=
  balancedEvents (runSteps steps failAt) && releaseOrderOk (runSteps steps failAt)

/-! ## Hlint hints and their payload codec (src/lint.rs, src/cache.rs)

`mark_haskell_linted` stores `serde_json::to_vec(hints)` as the row's blob;
`is_haskell_linted` decodes it with `serde_json::from_slice`.  The payload is
modelled at the JSON value level (the byte serialization of a JSON value is
injective, so the value level captures the round trip); the encoder follows
the `Serialize` derive (fields in declaration order, camelCase names, unit
enum variants as strings, `Option` as value-or-null), and the decoder accepts
what the encoder produces. -/

inductive Json where
  | str (s : String)
  | num (n : Nat)
  | null
  | arr (elems : List Json)
  | obj (fields : List (String × Json))

inductive HlintSeverity where
  | Ignore
  | Suggestion
  | Warning
  | Error
deriving DecidableEq

structure HlintHint where
  module : List String
  decl : List String
  severity : HlintSeverity
  hint : String
  file : String
  start_line : Nat
  start_column : Nat
  end_line : Nat
  end_column : Nat
  «from» : String
  «to» : Option String
  note : List String
  refactorings : String
deriving DecidableEq

def encodeSeverity : HlintSeverity → Json
  | .Ignore => .str "Ignore"
  | .Suggestion => .str "Suggestion"
  | .Warning => .str "Warning"
  | .Error => .str "Error"

def decodeSeverity : Json → Option HlintSeverity
  | .str "Ignore" => some .Ignore
  | .str "Suggestion" => some .Suggestion
  | .str "Warning" => some .Warning
  | .str "Error" => some .Error
  | _ => none

def encodeOptStr : Option String → Json
  | some s => .str s
  | none => .null

def decodeOptStr : Json → Option (Option String)
  | .str s => some (some s)
  | .null => some none
  | _ => none

def encodeStrs (l : List String) : Json :=
  .arr (l.map Json.str)

def decodeStrs : List Json → Option (List String)
  | [] => some []
  | .str s :: rest => (decodeStrs rest).map (fun l => s :: l)
  | _ => none

/-- One `HlintHint` as `serde_json` serializes it (camelCase field names in
declaration order). -/
def encodeHint (h : HlintHint) : Json :=
  .obj
    [("module", encodeStrs h.module),
     ("decl", encodeStrs h.decl),
     ("severity", encodeSeverity h.severity),
     ("hint", .str h.hint),
     ("file", .str h.file),
     ("startLine", .num h.start_line),
     ("startColumn", .num h.start_column),
     ("endLine", .num h.end_line),
     ("endColumn", .num h.end_column),
     ("from", .str h.«from»),
     ("to", encodeOptStr h.«to»),
     ("note", encodeStrs h.note),
     ("refactorings", .str h.refactorings)]

/-- Extract a field's value, checking its key. -/
def fieldIs (key : String) (p : String × Json) : Option Json :=
  if p.1 == key then some p.2 else none

def decodeStr : Json → Option String
  | .str s => some s
  | _ => none

def decodeNat : Json → Option Nat
  | .num n => some n
  | _ => none

def decodeStrList : Json → Option (List String)
  | .arr es => decodeStrs es
  | _ => none

def decodeHint : Json → Option HlintHint
  | .obj [p1, p2, p3, p4, p5, p6, p7, p8, p9, p10, p11, p12, p13] => do
    let module ← fieldIs "module" p1 >>= decodeStrList
    let decl ← fieldIs "decl" p2 >>= decodeStrList
    let severity ← fieldIs "severity" p3 >>= decodeSeverity
    let hint ← fieldIs "hint" p4 >>= decodeStr
    let file ← fieldIs "file" p5 >>= decodeStr
    let start_line ← fieldIs "startLine" p6 >>= decodeNat
    let start_column ← fieldIs "startColumn" p7 >>= decodeNat
    let end_line ← fieldIs "endLine" p8 >>= decodeNat
    let end_column ← fieldIs "endColumn" p9 >>= decodeNat
    let fr ← fieldIs "from" p10 >>= decodeStr
    let toSnippet ← fieldIs "to" p11 >>= decodeOptStr
    let note ← fieldIs "note" p12 >>= decodeStrList
    let refactorings ← fieldIs "refactorings" p13 >>= decodeStr
    some
      { module, decl, severity, hint, file, start_line, start_column,
        end_line, end_column, «from» := fr, «to» := toSnippet, note, refactorings }
  | _ => none

def encodeHints (hs : List HlintHint) : Json :=
  .arr (hs.map encodeHint)

def decodeHintList : List Json → Option (List HlintHint)
  | [] => some []
  | j :: rest => do
    let h ← decodeHint j
    let hs ← decodeHintList rest
    some (h :: hs)

def decodeHints : Json → Option (List HlintHint)
  | .arr js => decodeHintList js
  | _ => none

/-! ## The hlint cache table (src/cache.rs) -/

structure HlintRow where
  version : String
  configs_hash : String
  source_hash : String
  hints : Json

/-- The WHERE clause of `is_haskell_linted`:
`version = $1 and configs_hash = $2 and source_hash = $3`. -/
def hlintWhere (binds : List String) (r : HlintRow) : Bool :=
  some r.version == bindAt binds 1
    && some r.configs_hash == bindAt binds 2
    && some r.source_hash == bindAt binds 3

/-- `Cache::is_haskell_linted`: `fetch_optional` of the stored blob for the
key, then `serde_json::from_slice`; a malformed payload is an error. -/
def isHaskellLinted (t : List HlintRow)
    (version configs_hash source_hash : String) :
    Except Unit (Option (List HlintHint)) :=
  match t.find? (hlintWhere [version, configs_hash, source_hash]) with
  | none => .ok none
  | some r =>
    match decodeHints r.hints with
    | some hs => .ok (some hs)
    | none => .error ()

/-- The `hlint` table's unique key: `unique (version, configs_hash, source_hash)`. -/
def hlintUniqueKey (a b : HlintRow) : Bool :=
  a.version == b.version && a.configs_hash == b.configs_hash
    && a.source_hash == b.source_hash

/-- `Cache::mark_haskell_linted`: serialize the hint list, then
`insert or ignore into hlint values ($1, $2, $3, $4)`. -/
def markHaskellLinted (t : List HlintRow)
    (version configs_hash source_hash : String) (hints : List HlintHint) : List HlintRow :=
  let r : HlintRow := ⟨version, configs_hash, source_hash, encodeHints hints⟩
  if t.any (hlintUniqueKey r) then t else t ++ [r]

/-! ## Concrete inputs used by counterexamples and witnesses -/

/-- A filesystem in which the tool is present both on the standard search
path and in the repo-local `.bin` override directory (canonicalization is the
identity: no symlinks). -/
def c4Env : ToolEnv :=
  { pathResult := some "/usr/bin/hlint"
    binResult := some "/repo/.bin/hlint"
    canonical := fun p => p }

/-- A concrete hlint diagnostic. -/
def sampleHint : HlintHint :=
  { module := ["Main"]
    decl := ["main"]
    severity := .Warning
    hint := "Use pure"
    file := "src/Main.hs"
    start_line := 3
    start_column := 1
    end_line := 3
    end_column := 10
    «from» := "return ()"
    «to» := some "pure ()"
    note := ["decreases laziness"]
    refactorings := "[]" }

/-- A second concrete hlint diagnostic, without a suggested replacement. -/
def sampleHint2 : HlintHint :=
  { module := ["Main"]
    decl := ["helper"]
    severity := .Suggestion
    hint := "Redundant bracket"
    file := "src/Main.hs"
    start_line := 9
    start_column := 5
    end_line := 9
    end_column := 12
    «from» := "(x)"
    «to» := none
    note := []
    refactorings := "[]" }

/-! # Helper lemmas -/

/-- A list of length one containing `a` is `[a]`. -/
theorem singleton_of_length_one_contains (l : List String) (a : String)
    (h1 : l.length = 1) (h2 : l.contains a = true) : l = [a] := by
  match l, h1 with
  | [x], _ =>
    simp only [List.contains, List.elem_cons, List.elem_nil, Bool.or_false] at h2
    rcases Bool.or_eq_true_iff.mp h2 with h | h
    · rw [eq_of_beq h]
    · cases h

/-- The `is_nix_formatted` lookup can never match a row: the query compares
`source_hash` with the unbound parameter `$3`. -/
theorem isNixFormatted_false (t : List NixfmtRow) (v s : String) :
    isNixFormatted t v s = false := by
  induction t with
  | nil => rfl
  | cons r rest ih =>
    have hwhere : nixfmtWhere [v, s] r = false := by
      simp [nixfmtWhere, bindAt]
    simpa [isNixFormatted, List.any_cons, hwhere] using ih

/-! # Claim theorems -/

/-- Claim C1: for every tool kind and cache key, record followed by lookup
with the same key returns Found.  The code violates this for nixfmt:
`is_nix_formatted` compares `source_hash` with the query parameter `$3` while
only two values are bound, so the lookup never matches any row — in
particular it misses immediately after `mark_nix_formatted` recorded exactly
that key into an empty table. -/
theorem C1_nix_lookup_never_found :
    (∀ (t : List NixfmtRow) (version source_hash : String),
      isNixFormatted t version source_hash = false)
    ∧ markNixFormatted [] "1.0" "42" = [⟨"1.0", "42"⟩]
    ∧ isNixFormatted (markNixFormatted [] "1.0" "42") "1.0" "42" = false := by
  refine ⟨fun t v s => isNixFormatted_false t v s, by decide, ?_⟩
  exact isNixFormatted_false _ _ _

/-- Claim C2: the per-file fingerprint `file_hash` is the streaming hash of
the file's entire byte content, so changing the bytes changes the
fingerprint.  The code violates this: the read buffer is the zero-length
initialized view of `BytesMut::with_capacity(1024)`, so the first read
returns 0 bytes, the loop exits, and the hasher is fed nothing — every file
gets the fingerprint of the empty byte string. -/
theorem C2_file_hash_constant :
    (∀ content : List Nat, fileHashFed content = [])
    ∧ (∀ c₁ c₂ : List Nat, fileHashFed c₁ = fileHashFed c₂)
    ∧ fileHashFed [97] ≠ fileHashFedSpec [97] := by
  have hconst : ∀ content : List Nat, fileHashFed content = [] := by
    intro content
    rw [fileHashFed, hashedBytes]
    simp
  refine ⟨hconst, fun c₁ c₂ => by rw [hconst, hconst], ?_⟩
  rw [hconst]
  decide

/-- Claim C4 (as stated): tool resolution searches the repo-local `.bin`
override directory first and the standard executable search path second.
Counterexample: with `hlint` present in both places, `Cache::which` resolves
to the standard-search-path location, not the override location the claim's
order would produce. -/
theorem C4_claim_order_false :
    whichTool c4Env = .ok "/usr/bin/hlint"
    ∧ whichToolClaimOrder c4Env = .ok "/repo/.bin/hlint"
    ∧ whichTool c4Env ≠ whichToolClaimOrder c4Env := by
  refine ⟨rfl, rfl, ?_⟩
  intro h
  rw [show whichTool c4Env = .ok "/usr/bin/hlint" from rfl,
    show whichToolClaimOrder c4Env = .ok "/repo/.bin/hlint" from rfl] at h
  injection h with h
  exact absurd h (by decide)

/-- Claim C4, amended: `Cache::which` searches the standard executable search
path first and the repo-local `.bin` override directory second, returning the
canonicalized path of the first match; the override directory is consulted
only when the standard search path has no match. -/
theorem C4_search_order (env : ToolEnv) :
    (∀ p, env.pathResult = some p → whichTool env = .ok (env.canonical p))
    ∧ (env.pathResult = none → ∀ q, env.binResult = some q →
        whichTool env = .ok (env.canonical q))
    ∧ (env.pathResult = none → env.binResult = none →
        whichTool env = .error .cannotFindBinaryPath) := by
  refine ⟨fun p hp => ?_, fun hp q hq => ?_, fun hp hq => ?_⟩
  · simp [whichTool, whichPath, hp]
  · simp [whichTool, whichPath, whichBin, hp, hq]
  · simp [whichTool, whichPath, whichBin, hp, hq]

/-- Witness for `C4_search_order` at a concrete environment: the tool is in
both locations and the standard search path wins. -/
theorem C4_search_order_witness :
    whichTool c4Env = .ok "/usr/bin/hlint" :=
  (C4_search_order c4Env).1 "/usr/bin/hlint" rfl

/-- Claim C5: after `Cache::new`, the store holds exactly one binary-identity
row equal to the running build's identity; a missing, duplicated or different
recorded identity causes all three tool tables to be dropped and recreated
empty in one full reset, while a matching identity preserves them. -/
theorem C5_cache_new_reset (id : String) (s : Store) :
    (cacheNew id s).be_binary_id = some [id]
    ∧ (cacheNew id s).fourmolu = (if (sqliteValid id s).2 then s.fourmolu else some [])
    ∧ (cacheNew id s).nixfmt = (if (sqliteValid id s).2 then s.nixfmt else some [])
    ∧ (cacheNew id s).hlint = (if (sqliteValid id s).2 then s.hlint else some []) := by
  by_cases h : (sqliteValid id s).2 = true
  · have hids : s.be_binary_id.getD [] = [id] := by
      have h' := h
      simp only [sqliteValid, Bool.and_eq_true, beq_iff_eq] at h'
      exact singleton_of_length_one_contains _ _ h'.1 h'.2
    have hnew : cacheNew id s = (sqliteValid id s).1 := by
      simp [cacheNew, h]
    refine ⟨?_, ?_, ?_, ?_⟩ <;> simp [hnew, sqliteValid, hids, h]
  · have hnew : cacheNew id s = sqliteReset id := by
      simp only [Bool.not_eq_true] at h
      simp [cacheNew, h]
    simp only [Bool.not_eq_true] at h
    refine ⟨?_, ?_, ?_, ?_⟩ <;> simp [hnew, sqliteReset, h]

/-- Claim C3: a formatter pipeline records a source fingerprint only when the
formatter's output on that content is byte-identical to it.  The code
violates this: `format_haskell` calls `mark_haskell_formatted` right after
running the tool, before comparing output with input.  Concretely, with a
formatter that prepends a byte (output `[0, 1]` differs from input `[1]`) and
content hash `List.length`, the run on content `[1]` records fingerprint
`"1"`; a later stream-mode run on the same unformatted content `[1]` then
hits the cache and reuses the bytes unchanged, without invoking the tool. -/
theorem C3_mark_before_compare :
    (fun l => 0 :: l) [1] ≠ [1]
    ∧ (formatHaskell (fun l => 0 :: l) List.length "v" "c" "e"
        { table := [], file := [1] }).state.table
      = [{ version := "v", config_hash := "c", extensions_hash := "e", source_hash := "1" }]
    ∧ isHaskellFormatted
        (formatHaskell (fun l => 0 :: l) List.length "v" "c" "e"
          { table := [], file := [1] }).state.table "v" "c" "e" "1" = true
    ∧ (runFormatHaskellStdin (fun l => 0 :: l) List.length "v" "c" "e"
        (formatHaskell (fun l => 0 :: l) List.length "v" "c" "e"
          { table := [], file := [1] }).state.table [1]).output = [1]
    ∧ (runFormatHaskellStdin (fun l => 0 :: l) List.length "v" "c" "e"
        (formatHaskell (fun l => 0 :: l) List.length "v" "c" "e"
          { table := [], file := [1] }).state.table [1]).invoked = false := by
  refine ⟨by decide, by decide, by decide, by decide, by decide⟩

/-- Claim C6: when the formatter's output differs from the input, write-back
goes through a temp file in a private directory (write all bytes, flush) and
replaces the destination in a single rename: after every proper prefix of the
operations the destination still holds the complete old content, after all of
them the complete new content — never a partial write.  When output equals
input the pipeline performs no write-back operation at all. -/
theorem C6_atomic_write :
    (∀ (old bytes : List Nat) (n : Nat),
      (applyOps { dest := old, temp := none } ((writeFileOps bytes).take n)).dest
        = if 4 ≤ n then bytes else old)
    ∧ (∀ (old bytes : List Nat),
        (applyOps { dest := old, temp := none } (writeFileOps bytes)).dest = bytes)
    ∧ (∀ (f : List Nat → List Nat) (H : List Nat → Nat) (v c e : String) (st : FormatState),
        (formatHaskell f H v c e st).ops
          = if isHaskellFormatted st.table v c e (toString (H st.file)) then []
            else if st.file = f st.file then [] else writeFileOps (f st.file)) := by
  have htake : ∀ (old bytes : List Nat) (n : Nat),
      (applyOps { dest := old, temp := none } ((writeFileOps bytes).take n)).dest
        = if 4 ≤ n then bytes else old := by
    intro old bytes n
    match n with
    | 0 => simp [writeFileOps, applyOps]
    | 1 => simp [writeFileOps, applyOps, applyOp]
    | 2 => simp [writeFileOps, applyOps, applyOp]
    | 3 => simp [writeFileOps, applyOps, applyOp]
    | (m + 4) =>
      have : (writeFileOps bytes).take (m + 4) = writeFileOps bytes := by
        apply List.take_of_length_le
        simp [writeFileOps]
      rw [this]
      simp [writeFileOps, applyOps, applyOp]
  refine ⟨htake, fun old bytes => ?_, fun f H v c e st => ?_⟩
  · simpa using htake old bytes 4
  · by_cases hhit : isHaskellFormatted st.table v c e (toString (H st.file)) = true
    · simp [formatHaskell, hhit]
    · simp only [Bool.not_eq_true] at hhit
      by_cases heq : st.file = f st.file
      · simp [formatHaskell, hhit, heq.symm]
      · have hbeq : (st.file == f st.file) = false := by
          simp [heq]
        simp [formatHaskell, hhit, heq, hbeq]

/-- Claim C9: `exec` (and `sandbox_exec`) returns the child's captured stdout
exactly when the child exits successfully; otherwise the error is classified
as a normal exit with its code and the captured stderr, a termination by a
signal with the signal number, or a generic report for any other death. -/
theorem C9_exec_classification :
    (∀ (status : ExitStatus) (stdout stderr : List Nat),
      execResult (some ⟨status, stdout, stderr⟩) = execResultSpec status stdout stderr)
    ∧ execResult none = .error .spawnFailed
    ∧ (∀ (output : ChildOutput),
        (execResult (some output) = .ok output.stdout ↔ statusSuccess output.status = true))
    ∧ (∀ outcome, sandboxExecResult outcome = execResult outcome)
    ∧ (∀ profile program args,
        sandboxExecCommand false profile program args = { program := program, args := args })
    ∧ (∀ profile program args,
        sandboxExecCommand true profile program args
          = { program := "/usr/bin/sandbox-exec", args := ["-p", profile, "--", program] ++ args }) := by
  refine ⟨fun status stdout stderr => ?_, rfl, fun output => ?_, fun outcome => rfl,
    fun profile program args => rfl, fun profile program args => rfl⟩
  · cases status with
    | exited code =>
      by_cases h : code = 0
      · simp [execResult, execResultSpec, statusSuccess, h]
      · have hbeq : (code == 0) = false := by simp [h]
        simp [execResult, execResultSpec, statusSuccess, statusCode, statusSignal, h, hbeq]
    | signaled sig => simp [execResult, execResultSpec, statusSuccess, statusCode, statusSignal]
    | unknown => simp [execResult, execResultSpec, statusSuccess, statusCode, statusSignal]
  · constructor
    · intro h
      by_contra hs
      simp only [Bool.not_eq_true] at hs
      simp only [execResult, hs, Bool.false_eq_true, if_false] at h
      rcases hcode : statusCode output.status with _ | code
      · rcases hsig : statusSignal output.status with _ | sig
        · simp [hcode, hsig] at h
        · simp [hcode, hsig] at h
      · simp [hcode] at h
    · intro h
      simp [execResult, h]

/-- Claim C10: in stdin (stream) mode, formatting never modifies the cache
tables: a hit emits the input bytes, a miss invokes the formatter and emits
its output, and the key is never recorded, so a rerun on the same content
invokes the tool again (for nixfmt the broken lookup of C1 means every
stream-mode run invokes the tool).  Only the per-file pipeline
(`format_haskell`) records fingerprints, and it does so exactly on a miss. -/
theorem C10_stdin_frame :
    (∀ (f : List Nat → List Nat) (H : List Nat → Nat) (v c e : String)
      (t : List FourmoluRow) (input : List Nat),
      (runFormatHaskellStdin f H v c e t input).table = t
      ∧ (runFormatHaskellStdin f H v c e t input).invoked
          = !(isHaskellFormatted t v c e (toString (H input)))
      ∧ (runFormatHaskellStdin f H v c e t input).output
          = (if isHaskellFormatted t v c e (toString (H input)) then input else f input)
      ∧ (runFormatHaskellStdin f H v c e
          (runFormatHaskellStdin f H v c e t input).table input).invoked
          = (runFormatHaskellStdin f H v c e t input).invoked
      ∧ (formatHaskell f H v c e { table := t, file := input }).state.table
          = (if isHaskellFormatted t v c e (toString (H input)) then t
             else markHaskellFormatted t v c e (toString (H input))))
    ∧ (∀ (g : List Nat → List Nat) (H : List Nat → Nat) (v : String)
        (t : List NixfmtRow) (input : List Nat),
        (runFormatNixStdin g H v t input).table = t
        ∧ (runFormatNixStdin g H v t input).invoked = true
        ∧ (runFormatNixStdin g H v t input).output = g input) := by
  constructor
  · intro f H v c e t input
    by_cases h : isHaskellFormatted t v c e (toString (H input)) = true
    · refine ⟨?_, ?_, ?_, ?_, ?_⟩ <;>
        simp [runFormatHaskellStdin, formatHaskell, h]
    · simp only [Bool.not_eq_true] at h
      by_cases heq : (input == f input) = true
      · refine ⟨?_, ?_, ?_, ?_, ?_⟩ <;>
          simp [runFormatHaskellStdin, formatHaskell, h, heq]
      · simp only [Bool.not_eq_true] at heq
        refine ⟨?_, ?_, ?_, ?_, ?_⟩ <;>
          simp [runFormatHaskellStdin, formatHaskell, h, heq]
  · intro g H v t input
    have h := isNixFormatted_false t v (toString (H input))
    refine ⟨?_, ?_, ?_⟩ <;> simp [runFormatNixStdin, h]

/-! # Codec helper lemmas for the hlint payload -/

theorem decodeStrs_encode (l : List String) : decodeStrs (l.map Json.str) = some l := by
  induction l with
  | nil => rfl
  | cons s rest ih => simp [decodeStrs, ih]

theorem decodeSeverity_encode (s : HlintSeverity) :
    decodeSeverity (encodeSeverity s) = some s := by
  cases s <;> rfl

theorem decodeOptStr_encode (o : Option String) :
    decodeOptStr (encodeOptStr o) = some o := by
  cases o <;> rfl

theorem decodeStrList_encode (l : List String) :
    decodeStrList (encodeStrs l) = some l := by
  simp [decodeStrList, encodeStrs, decodeStrs_encode]

theorem decodeHint_encode (h : HlintHint) : decodeHint (encodeHint h) = some h := by
  cases h
  simp [encodeHint, decodeHint, fieldIs, decodeStrList_encode, decodeSeverity_encode,
    decodeOptStr_encode, decodeStr, decodeNat, Option.bind]

theorem decodeHintList_encode (l : List HlintHint) :
    decodeHintList (l.map encodeHint) = some l := by
  induction l with
  | nil => rfl
  | cons h rest ih => simp [decodeHintList, decodeHint_encode, ih, Option.bind]

theorem decodeHints_encode (l : List HlintHint) :
    decodeHints (encodeHints l) = some l := by
  simp [decodeHints, encodeHints, decodeHintList_encode]

/-- `Option.beq` on two `some`s is the inner comparison. -/
theorem some_beq_some (a b : String) : ((some a == some b) : Bool) = (a == b) :=
  rfl

/-- String comparison with `==` is symmetric. -/
theorem string_beq_comm (a b : String) : (a == b) = (b == a) := by
  by_cases h : a = b
  · subst h; rfl
  · have h1 : (a == b) = false := beq_eq_false_iff_ne.mpr h
    have h2 : (b == a) = false := beq_eq_false_iff_ne.mpr (fun e => h e.symm)
    rw [h1, h2]

theorem bindAt3_1 (a b c : String) : bindAt [a, b, c] 1 = some a := rfl

theorem bindAt3_2 (a b c : String) : bindAt [a, b, c] 2 = some b := rfl

theorem bindAt3_3 (a b c : String) : bindAt [a, b, c] 3 = some c := rfl

/-- On a lookup miss, no row of the table matches the key's WHERE clause. -/
theorem hlint_miss_all_false (t : List HlintRow) (v c s : String)
    (h : isHaskellLinted t v c s = .ok none) :
    ∀ r ∈ t, hlintWhere [v, c, s] r = false := by
  intro r hr
  rcases hfind : t.find? (hlintWhere [v, c, s]) with _ | r'
  · have := List.find?_eq_none.mp hfind r hr
    simpa using this
  · exfalso
    rw [isHaskellLinted, hfind] at h
    rcases hdec : decodeHints r'.hints with _ | hs <;> simp [hdec] at h

/-- Claim C7: a linter diagnostic list produced on a miss is persisted whole
under a single row for its key, and a later lookup with the same key decodes
the stored payload back to an equal list (decoding inverts encoding), which
prints the same way as on the first run. -/
theorem C7_lint_roundtrip (t : List HlintRow) (v c s : String) (hints : List HlintHint)
    (hmiss : isHaskellLinted t v c s = .ok none) :
    isHaskellLinted (markHaskellLinted t v c s hints) v c s = .ok (some hints)
    ∧ (markHaskellLinted t v c s hints).filter (hlintWhere [v, c, s])
        = [⟨v, c, s, encodeHints hints⟩]
    ∧ decodeHints (encodeHints hints) = some hints := by
  have hall := hlint_miss_all_false t v c s hmiss
  have hwhere_self : hlintWhere [v, c, s] ⟨v, c, s, encodeHints hints⟩ = true := by
    simp [hlintWhere, bindAt3_1, bindAt3_2, bindAt3_3, some_beq_some]
  have hkey_false : ∀ r ∈ t, hlintUniqueKey ⟨v, c, s, encodeHints hints⟩ r = false := by
    intro r hr
    have hw := hall r hr
    simp only [hlintWhere, bindAt3_1, bindAt3_2, bindAt3_3, some_beq_some] at hw
    simp only [hlintUniqueKey]
    rw [string_beq_comm v r.version, string_beq_comm c r.configs_hash,
      string_beq_comm s r.source_hash]
    exact hw
  have hany : t.any (hlintUniqueKey ⟨v, c, s, encodeHints hints⟩) = false := by
    rw [List.any_eq_false]
    intro r hr
    simp [hkey_false r hr]
  have hmark : markHaskellLinted t v c s hints = t ++ [⟨v, c, s, encodeHints hints⟩] := by
    simp [markHaskellLinted, hany]
  have hfind : (t ++ [(⟨v, c, s, encodeHints hints⟩ : HlintRow)]).find?
      (hlintWhere [v, c, s]) = some ⟨v, c, s, encodeHints hints⟩ := by
    rw [List.find?_append]
    have h1 : t.find? (hlintWhere [v, c, s]) = none :=
      List.find?_eq_none.mpr (fun r hr => by simp [hall r hr])
    simp [h1, List.find?, hwhere_self]
  refine ⟨?_, ?_, decodeHints_encode hints⟩
  · rw [hmark, isHaskellLinted, hfind]
    simp [decodeHints_encode]
  · rw [hmark, List.filter_append]
    have h1 : t.filter (hlintWhere [v, c, s]) = [] := by
      rw [List.filter_eq_nil_iff]
      intro r hr
      simp [hall r hr]
    simp [h1, List.filter, hwhere_self]

/-- Witness for `C7_lint_roundtrip`: recording two concrete diagnostics for a
fresh key and looking the key up returns them both. -/
theorem C7_lint_roundtrip_witness :
    isHaskellLinted
        (markHaskellLinted [] "hlint-3.8" "77" "12345" [sampleHint, sampleHint2])
        "hlint-3.8" "77" "12345"
      = .ok (some [sampleHint, sampleHint2]) :=
  (C7_lint_roundtrip [] "hlint-3.8" "77" "12345" [sampleHint, sampleHint2] rfl).1

/-- A failure point at or beyond the end of the steps is the same as no
failure. -/
theorem runStepsAux_ge (steps : List PStep) :
    ∀ (i : Nat) (held : List PKind), steps.length ≤ i →
      runStepsAux steps (some i) held = runStepsAux steps none held := by
  induction steps with
  | nil => intro i held _; rfl
  | cons s rest ih =>
    intro i held hle
    simp only [List.length_cons] at hle
    have hi : ¬((some i : Option Nat) = some 0) := by
      simp only [Option.some.injEq]
      omega
    have hnone : ¬((none : Option Nat) = some 0) := by simp
    have hrest : rest.length ≤ i - 1 := by omega
    cases s with
    | acquire k =>
      simp only [runStepsAux, if_neg hi, if_neg hnone, Option.map]
      rw [ih (i - 1) (k :: held) hrest]
    | release k =>
      simp only [runStepsAux, if_neg hi, if_neg hnone, Option.map]
      rw [ih (i - 1) (held.erase k) hrest]
    | action =>
      simp only [runStepsAux, if_neg hi, if_neg hnone, Option.map]
      rw [ih (i - 1) held hrest]

/-- Claim C8: every acquired file or process permit is released on every exit
path — after the operation completes, successfully or through any early error
return, both pools are restored (releases match acquisitions) — and a tool
invocation that acquired a file permit then a process permit releases them in
reverse order (process permit strictly before file permit).  Quantified over
every failure point of `fourmolu`, `hlint`, `read_file` and `write_file`. -/
theorem C8_permits_balanced (failAt : Option Nat) :
    stepsOk fourmoluSteps failAt = true
    ∧ stepsOk hlintSteps failAt = true
    ∧ stepsOk readFileSteps failAt = true
    ∧ stepsOk writeFileSteps failAt = true := by
  match failAt with
  | none => exact ⟨by decide, by decide, by decide, by decide⟩
  | some i =>
    by_cases hi : i < 13
    · interval_cases i <;> exact ⟨by decide, by decide, by decide, by decide⟩
    · have h13 : 13 ≤ i := by omega
      have e1 : stepsOk fourmoluSteps (some i) = stepsOk fourmoluSteps none := by
        unfold stepsOk runSteps
        rw [runStepsAux_ge fourmoluSteps i [] (by simp [fourmoluSteps]; omega)]
      have e2 : stepsOk hlintSteps (some i) = stepsOk hlintSteps none := by
        unfold stepsOk runSteps
        rw [runStepsAux_ge hlintSteps i [] (by simp [hlintSteps]; omega)]
      have e3 : stepsOk readFileSteps (some i) = stepsOk readFileSteps none := by
        unfold stepsOk runSteps
        rw [runStepsAux_ge readFileSteps i [] (by simp [readFileSteps]; omega)]
      have e4 : stepsOk writeFileSteps (some i) = stepsOk writeFileSteps none := by
        unfold stepsOk runSteps
        rw [runStepsAux_ge writeFileSteps i [] (by simp [writeFileSteps]; omega)]
      rw [e1, e2, e3, e4]
      exact ⟨by decide, by decide, by decide, by decide⟩

end Be
